import Mathlib

/-!
# Verification of the SimpleBlockchainApp ledger core

A shallow embedding of `src/blockchain.py` (class `Blockchain`): blocks,
SHA-256 hashing, the proof-of-work search, mining, validation, deletion
with suffix repair, and clearing.  the unbounded Python `while` loop in
`_proof_of_work` is modelled with an explicit fuel parameter; a call that
would diverge (or raise) is `none`.
-/

/-! ## SHA-256 over byte lists (bytes are `Nat < 256`) -/

namespace SHA256

def M32 : Nat := 4294967296

/-- Rotate a 32-bit word right by `n` (0 < n < 32). -/
def rotr (n x : Nat) : Nat :=
  Nat.lor (x >>> n) ((x <<< (32 - n)) % M32)

def bsig0 (x : Nat) : Nat := Nat.xor (rotr 2 x) (Nat.xor (rotr 13 x) (rotr 22 x))
def bsig1 (x : Nat) : Nat := Nat.xor (rotr 6 x) (Nat.xor (rotr 11 x) (rotr 25 x))
def ssig0 (x : Nat) : Nat := Nat.xor (rotr 7 x) (Nat.xor (rotr 18 x) (x >>> 3))
def ssig1 (x : Nat) : Nat := Nat.xor (rotr 17 x) (Nat.xor (rotr 19 x) (x >>> 10))

def ch (x y z : Nat) : Nat := Nat.xor (Nat.land x y) (Nat.land (M32 - 1 - x) z)
def maj (x y z : Nat) : Nat :=
  Nat.xor (Nat.land x y) (Nat.xor (Nat.land x z) (Nat.land y z))

/-- The 64 SHA-256 round constants. -/
def K : List Nat :=
  [1116352408, 1899447441, 3049323471, 3921009573, 961987163, 1508970993,
   2453635748, 2870763221, 3624381080, 310598401, 607225278, 1426881987,
   1925078388, 2162078206, 2614888103, 3248222580, 3835390401, 4022224774,
   264347078, 604807628, 770255983, 1249150122, 1555081692, 1996064986,
   2554220882, 2821834349, 2952996808, 3210313671, 3336571891, 3584528711,
   113926993, 338241895, 666307205, 773529912, 1294757372, 1396182291,
   1695183700, 1986661051, 2177026350, 2456956037, 2730485921, 2820302411,
   3259730800, 3345764771, 3516065817, 3600352804, 4094571909, 275423344,
   430227734, 506948616, 659060556, 883997877, 958139571, 1322822218,
   1537002063, 1747873779, 1955562222, 2024104815, 2227730452, 2361852424,
   2428436474, 2756734187, 3204031479, 3329325298]

/-- Initial hash state. -/
def H0 : List Nat :=
  [1779033703, 3144134277, 1013904242, 2773480762,
   1359893119, 2600822924, 528734635, 1541459225]

/-- Extend a 16-word block to the full 64-word message schedule.
`acc` holds the schedule so far in reverse order. -/
def schedule (need : Nat) (acc : List Nat) : List Nat :=
  match need with
  | 0 => acc.reverse
  | n + 1 =>
    match acc with
    | _ :: w2 :: _ :: _ :: _ :: _ :: w7 :: _ :: _ :: _ :: _ :: _ :: _ :: _ :: w15 :: rest =>
      let w16 := match rest with | w :: _ => w | [] => 0
      schedule n (((ssig1 w2 + w7 + ssig0 w15 + w16) % M32) :: acc)
    | _ => acc.reverse

/-- One round of the compression function. -/
def round (a b c d e f g h kw : Nat) : Nat × Nat × Nat × Nat × Nat × Nat × Nat × Nat :=
  let t1 := (h + bsig1 e + ch e f g + kw) % M32
  let t2 := (bsig0 a + maj a b c) % M32
  ((t1 + t2) % M32, a, b, c, (d + t1) % M32, e, f, g)

def rounds : List Nat → Nat → Nat → Nat → Nat → Nat → Nat → Nat → Nat →
    Nat × Nat × Nat × Nat × Nat × Nat × Nat × Nat
  | [], a, b, c, d, e, f, g, h => (a, b, c, d, e, f, g, h)
  | kw :: rest, a, b, c, d, e, f, g, h =>
    match round a b c d e f g h kw with
    | (a', b', c', d', e', f', g', h') => rounds rest a' b' c' d' e' f' g' h'

/-- Compress one 64-word schedule into the running state. -/
def compress (st : List Nat) (ws : List Nat) : List Nat :=
  match st with
  | [a, b, c, d, e, f, g, h] =>
    match rounds (List.zipWith (fun k w => (k + w) % M32) K ws) a b c d e f g h with
    | (a', b', c', d', e', f', g', h') =>
      [(a + a') % M32, (b + b') % M32, (c + c') % M32, (d + d') % M32,
       (e + e') % M32, (f + f') % M32, (g + g') % M32, (h + h') % M32]
  | _ => st

/-- Pack bytes (big-endian) into 32-bit words; assumes length divisible by 4. -/
def toWords : List Nat → List Nat
  | b0 :: b1 :: b2 :: b3 :: rest =>
    (((b0 * 256 + b1) * 256 + b2) * 256 + b3) :: toWords rest
  | _ => []

/-- Split a word list into chunks of 16 and fold the compression over them.
The first argument is a structural-recursion counter; any value at least the
number of words makes it exhaustive. -/
def processChunks : Nat → List Nat → List Nat → List Nat
  | 0, st, _ => st
  | _ + 1, st, [] => st
  | n + 1, st, w :: ws =>
    processChunks n (compress st (schedule 48 ((w :: ws).take 16).reverse)) ((w :: ws).drop 16)

/-- The eight bytes of the big-endian 64-bit encoding of the bit length. -/
def lenBytes (bitLen : Nat) : List Nat :=
  [bitLen / 72057594037927936 % 256, bitLen / 281474976710656 % 256,
   bitLen / 1099511627776 % 256, bitLen / 4294967296 % 256,
   bitLen / 16777216 % 256, bitLen / 65536 % 256,
   bitLen / 256 % 256, bitLen % 256]

/-- SHA-256 padding: append 0x80, zero bytes, and the 64-bit bit length. -/
def pad (msg : List Nat) : List Nat :=
  msg ++ 128 :: List.replicate ((119 - msg.length % 64) % 64) 0 ++ lenBytes (msg.length * 8)

/-- The eight 32-bit words of the SHA-256 digest of a byte list. -/
def sha256Words (msg : List Nat) : List Nat :=
  let ws := toWords (pad msg)
  processChunks ws.length H0 ws

def hexChar (n : Nat) : Char := Char.ofNat (if n < 10 then 48 + n else 87 + n)

def wordHex (w : Nat) : List Char :=
  [hexChar (w / 268435456 % 16), hexChar (w / 16777216 % 16), hexChar (w / 1048576 % 16),
   hexChar (w / 65536 % 16), hexChar (w / 4096 % 16), hexChar (w / 256 % 16),
   hexChar (w / 16 % 16), hexChar (w % 16)]

end SHA256

/-- Lowercase hex digest of the SHA-256 of a byte list, as `hashlib.sha256(...).hexdigest()` in the source. -/
def sha256hex (msg : List Nat) : String :=
  String.mk ((SHA256.sha256Words msg).map SHA256.wordHex).flatten

/-! ## Encodings: UTF-8, decimal integers, Python `json.dumps` -/

/-- UTF-8 bytes of a code point, as Python `str.encode()`. -/
def utf8Bytes (c : Nat) : List Nat :=
  if c < 128 then [c]
  else if c < 2048 then [192 + c / 64, 128 + c % 64]
  else if c < 65536 then [224 + c / 4096, 128 + c / 64 % 64, 128 + c % 64]
  else [240 + c / 262144, 128 + c / 4096 % 64, 128 + c / 64 % 64, 128 + c % 64]

/-- The UTF-8 encoding of a string as a byte list (Python `s.encode()`). -/
def strBytes (s : String) : List Nat :=
  (s.data.map (fun ch => utf8Bytes ch.toNat)).flatten

/-- ASCII digits of `n`, accumulator style; the first argument is a
structural-recursion counter (`n` itself always suffices). -/
def decDigitsAux : Nat → Nat → List Nat → List Nat
  | 0, n, acc => (48 + n % 10) :: acc
  | fuel + 1, n, acc =>
    if n < 10 then (48 + n) :: acc
    else decDigitsAux fuel (n / 10) ((48 + n % 10) :: acc)

/-- ASCII bytes of Python `str(n)` for a natural number. -/
def natBytes (n : Nat) : List Nat := decDigitsAux n n []

/-- ASCII bytes of Python `str(v)` for an integer (minus sign for negatives). -/
def intBytes : Int → List Nat
  | Int.ofNat n => natBytes n
  | Int.negSucc n => 45 :: natBytes (n + 1)

def hexDigitByte (n : Nat) : Nat := if n < 10 then 48 + n else 87 + n

/-- A `\uXXXX` escape for a code unit, as the Python `json` module with `ensure_ascii`. -/
def uEscape (c : Nat) : List Nat :=
  [92, 117, hexDigitByte (c / 4096 % 16), hexDigitByte (c / 256 % 16),
   hexDigitByte (c / 16 % 16), hexDigitByte (c % 16)]

/-- How Python `json.dumps` (default `ensure_ascii=True`) renders one
character inside a string literal. -/
def jsonEscChar (c : Nat) : List Nat :=
  if c = 34 then [92, 34]
  else if c = 92 then [92, 92]
  else if c = 8 then [92, 98]
  else if c = 9 then [92, 116]
  else if c = 10 then [92, 110]
  else if c = 12 then [92, 102]
  else if c = 13 then [92, 114]
  else if c < 32 then uEscape c
  else if c < 127 then [c]
  else if c < 65536 then uEscape c
  else uEscape (55296 + (c - 65536) / 1024) ++ uEscape (56320 + (c - 65536) % 1024)

/-- Bytes of a JSON string literal (with quotes) for a string value. -/
def jsonStrBytes (s : String) : List Nat :=
  34 :: (s.data.map (fun ch => jsonEscChar ch.toNat)).flatten ++ [34]

/-- ASCII bytes of a plain ASCII literal. -/
def litBytes (s : String) : List Nat := s.data.map Char.toNat

/-! ## The Block record and the ledger operations (`src/blockchain.py`) -/

/-- One block, as the dict built by `Blockchain._create_block`. -/
structure Block where
  index : Nat
  timestamp : String
  data : String
  proof : Nat
  previous_hash : String
deriving DecidableEq, Repr

/-- Source `Blockchain._create_block` (the timestamp, `str(datetime.now())` in the
source, is taken as an explicit argument). -/
def create_block (data : String) (proof : Nat) (previous_hash : String) (index : Nat)
    (timestamp : String) : Block :=
  { index := index, timestamp := timestamp, data := data, proof := proof,
    previous_hash := previous_hash }

/-- Bytes of `json.dumps(block, sort_keys=True)`: keys in lexicographic order
`data, index, previous_hash, proof, timestamp`, separators `", "` and `": "`. -/
def block_json_bytes (b : Block) : List Nat :=
  litBytes "\x7b\"data\": " ++ jsonStrBytes b.data ++
  litBytes ", \"index\": " ++ natBytes b.index ++
  litBytes ", \"previous_hash\": " ++ jsonStrBytes b.previous_hash ++
  litBytes ", \"proof\": " ++ natBytes b.proof ++
  litBytes ", \"timestamp\": " ++ jsonStrBytes b.timestamp ++ litBytes "\x7d"

/-- Source `Blockchain._hash`: SHA-256 hex digest of the sorted-keys JSON dump. -/
def hash_block (b : Block) : String := sha256hex (block_json_bytes b)

/-- Source `Blockchain._to_digest`: `str(new_proof**2 - previous_proof**2 + index)`
(a Python `int`, possibly negative) concatenated with `data`, UTF-8 encoded. -/
def to_digest (new_proof previous_proof index : Nat) (data : String) : List Nat :=
  intBytes ((new_proof : Int) ^ 2 - (previous_proof : Int) ^ 2 + (index : Int)) ++
  strBytes data

/-- The work condition checked by `_proof_of_work` and `validate_block`:
the first four characters of the hex digest are `"0000"`. -/
def work_ok (new_proof previous_proof index : Nat) (data : String) : Bool :=
  (sha256hex (to_digest new_proof previous_proof index data)).take 4 == "0000"

/-- The `while` loop of `Blockchain._proof_of_work`, with fuel; `none` means
the loop has not terminated within `fuel` iterations. -/
def pow_loop (previous_proof index : Nat) (data : String) : Nat → Nat → Option Nat
  | 0, _ => none
  | fuel + 1, n =>
    if work_ok n previous_proof index data then some n
    else pow_loop previous_proof index data fuel (n + 1)

/-- Source `Blockchain._proof_of_work`: brute-force search starting at 1. -/
def proof_of_work (fuel previous_proof index : Nat) (data : String) : Option Nat :=
  pow_loop previous_proof index data fuel 1

/-- Source `Blockchain.mine_block`; `none` when the chain is empty (Python raises
`IndexError` on `chain[-1]`) or the proof search does not terminate.  Returns
the extended chain together with the returned block. -/
def mine_block (fuel : Nat) (chain : List Block) (data timestamp : String) :
    Option (List Block × Block) :=
  match chain.getLast? with
  | none => none
  | some previous_block =>
    match proof_of_work fuel previous_block.proof (chain.length + 1) data with
    | none => none
    | some proof =>
      let block := create_block data proof (hash_block previous_block)
        (chain.length + 1) timestamp
      some (chain ++ [block], block)

/-- Source `Blockchain.validate_block`. -/
def validate_block (block previous_block : Block) : Bool :=
  if block.previous_hash != hash_block previous_block then false
  else if (sha256hex (to_digest block.proof previous_block.proof block.index
      block.data)).take 4 != "0000" then false
  else true

/-- The loop of `Blockchain.is_chain_valid` from a given predecessor. -/
def chain_valid_from : Block → List Block → Bool
  | _, [] => true
  | prev, b :: bs => if !validate_block b prev then false else chain_valid_from b bs

/-- Source `Blockchain.is_chain_valid`. -/
def is_chain_valid : List Block → Bool
  | [] => true
  | b :: bs => chain_valid_from b bs

/-- Python `self.chain.remove(block_to_delete)`: drop the first block whose `proof`
equals `p` (earlier blocks have a different `proof`, so the first dict equal
to the found one is the found one itself). -/
def remove_first_by_proof : List Block → Nat → List Block
  | [], _ => []
  | b :: bs, p => if b.proof == p then bs else b :: remove_first_by_proof bs p

/-- The repair loop of `delete_block`.  The source iterates
`for i in range(len(chain)-1, 0, -1)` mutating `chain[i]` in place; since the
walk is backward, each `chain[i-1]` it reads is still un-repaired, so the new
fields of block `i` are computed from the *old* value of block `i-1`.  This
forward pass passes the old `current_block` along as the next predecessor,
which yields exactly the same values. -/
def repair_from (fuel : Nat) : Block → List Block → Option (List Block)
  | _, [] => some []
  | previous_block, current_block :: rest =>
    match proof_of_work fuel previous_block.proof current_block.index
        current_block.data with
    | none => none
    | some proof =>
      match repair_from fuel current_block rest with
      | none => none
      | some rest' =>
        some ({ current_block with
                  previous_hash := hash_block previous_block,
                  proof := proof } :: rest')

/-- The whole repair pass of `delete_block` on the post-removal chain: the
head (`chain[0]`) is never touched by `range(len-1, 0, -1)`; every later
position is recomputed from its (pre-repair) predecessor. -/
def repair_chain (fuel : Nat) : List Block → Option (List Block)
  | [] => some []
  | b :: bs => (repair_from fuel b bs).map (fun bs' => b :: bs')

/-- Source `Blockchain.delete_block`: silent no-op when no block has the proof;
otherwise remove the first match and run the repair loop over positions
`len-1` down to `1`. -/
def delete_block (fuel : Nat) (chain : List Block) (proof : Nat) :
    Option (List Block) :=
  if chain.any (fun b => b.proof == proof) then
    repair_chain fuel (remove_first_by_proof chain proof)
  else some chain

/-- Source `Blockchain.clear`: `self.chain = [self.chain[0]]`; `none` models the
`IndexError` raised on an empty chain (the chain is left unchanged). -/
def clear : List Block → Option (List Block)
  | [] => none
  | b :: _ => some [b]

/-- The genesis block built by `Blockchain.__init__` (its timestamp is
whatever `datetime.now()` returned at construction). -/
def genesis_block (timestamp : String) : Block :=
  create_block "genesis block" 1 "0" 1 timestamp

/-! ## Concrete sample blocks used for witnesses and counterexamples -/

/-- A genesis block whose construction-time timestamp was `"t0"`. -/
def gEx : Block := genesis_block "t0"

def hG : String := "401fca3d494874d3b8fca0579dd7e994a5276e88ddf2aa393e0a50759d6bfac4"

/-- The block mined on `[gEx]` with data `"a2132"` at time `"t1"`. -/
def b1Ex : Block :=
  { index := 2, timestamp := "t1", data := "a2132", proof := 11, previous_hash := hG }

def hB1 : String := "e4745712180fc146b81c2a21bdf3594c5455a211a00c2d8a70717a7880a8a42d"

/-- The block mined next with data `"b76851"` at time `"t2"`. -/
def b2Ex : Block :=
  { index := 3, timestamp := "t2", data := "b76851", proof := 13, previous_hash := hB1 }

def hB2 : String := "b908a0225eb8aa19ceb91516ba9e0c1c33a07a8b7ad6f700cf338848a402a186"

/-- The block mined next with data `"c2036"` at time `"t3"`. -/
def b3Ex : Block :=
  { index := 4, timestamp := "t3", data := "c2036", proof := 8, previous_hash := hB2 }

/-- The property that `q` is the least integer from `1` on satisfying the work condition. -/
def IsLeastProof (q previous_proof index : Nat) (data : String) : Prop :=
  1 ≤ q ∧ work_ok q previous_proof index data = true ∧
    ∀ m, 1 ≤ m → m < q → work_ok m previous_proof index data = false

/-! ## Well-formed (mined) chains -/

/-- Each block links to its predecessor by hash and carries the least
satisfying proof — the state of affairs `mine_block` establishes. -/
def chain_ok : Block → List Block → Prop
  | _, [] => True
  | prev, b :: bs =>
    b.previous_hash = hash_block prev ∧
    IsLeastProof b.proof prev.proof b.index b.data ∧ chain_ok b bs

/-- Chains reachable from a fresh ledger using `mine_block` alone. -/
inductive Mined (gts : String) : List Block → Prop
  | init : Mined gts [genesis_block gts]
  | mine {c c' : List Block} {b : Block} (fuel : Nat) (data timestamp : String) :
      Mined gts c → mine_block fuel c data timestamp = some (c', b) → Mined gts c'

/-! ## Reachable ledger states -/

/-- One successful mutating call on the ledger state.  A call that raises
(`mine_block`/`clear` on an empty chain) or never returns leaves the state
unchanged, so it contributes nothing to reachability. -/
inductive Step : List Block → List Block → Prop
  | mine (fuel : Nat) (data timestamp : String) {c c' : List Block} {b : Block} :
      mine_block fuel c data timestamp = some (c', b) → Step c c'
  | del (fuel p : Nat) {c c' : List Block} :
      delete_block fuel c p = some c' → Step c c'
  | clr {c c' : List Block} : clear c = some c' → Step c c'

/-- States reachable from a fresh ledger by `mine_block`, `delete_block`
and `clear` calls. -/
inductive Reached (gts : String) : List Block → Prop
  | init : Reached gts [genesis_block gts]
  | step {c c' : List Block} : Reached gts c → Step c c' → Reached gts c'

/-- Steps in which `delete_block` is never called with proof value `1`
(the sentinel proof value of the genesis block). -/
inductive StepD1 : List Block → List Block → Prop
  | mine (fuel : Nat) (data timestamp : String) {c c' : List Block} {b : Block} :
      mine_block fuel c data timestamp = some (c', b) → StepD1 c c'
  | del (fuel p : Nat) {c c' : List Block} : p ≠ 1 →
      delete_block fuel c p = some c' → StepD1 c c'
  | clr {c c' : List Block} : clear c = some c' → StepD1 c c'

inductive ReachedD1 (gts : String) : List Block → Prop
  | init : ReachedD1 gts [genesis_block gts]
  | step {c c' : List Block} : ReachedD1 gts c → StepD1 c c' → ReachedD1 gts c'

/-- States reachable using only `mine_block` and `clear` (no deletions). -/
inductive ReachedMC (gts : String) : List Block → Prop
  | init : ReachedMC gts [genesis_block gts]
  | mine {c c' : List Block} {b : Block} (fuel : Nat) (data timestamp : String) :
      ReachedMC gts c → mine_block fuel c data timestamp = some (c', b) →
      ReachedMC gts c'
  | clr {c c' : List Block} : ReachedMC gts c → clear c = some c' → ReachedMC gts c'

/-- The block mined on the chain `[b1Ex]` (genesis already deleted) with
data `"x1013"` at time `"t4"`: it reuses index 2. -/
def bXEx : Block :=
  { index := 2, timestamp := "t4", data := "x1013", proof := 20, previous_hash := hB1 }

/-- The block `b1Ex` with only its timestamp changed. -/
def b1TsEx : Block := { b1Ex with timestamp := "t9" }

/-- The block `b1Ex` with only its data changed. -/
def b1DataEx : Block := { b1Ex with data := "zz" }

/-- The block `b1Ex` with only its previous-hash field changed. -/
def b1PhEx : Block := { b1Ex with previous_hash := "tampered" }

/-- What the repair loop turns `b2Ex` into after `b1Ex` is deleted:
re-chained to the genesis block and re-mined from its proof. -/
def b2RE : Block :=
  { index := 3, timestamp := "t2", data := "b76851", proof := 7, previous_hash := hG }

/-- Fourth block of the five-block chain used for the C3 counterexample. -/
def b3J : Block :=
  { index := 4, timestamp := "t3", data := "e21491", proof := 17, previous_hash := hB2 }

def hB3J : String := "fc73e52b929a3fa371f0fc82f183847bc038bf8ae3f80bb890d91a2b2d66fa93"

/-- Fifth block of the five-block chain used for the C3 counterexample. -/
def b4J : Block :=
  { index := 5, timestamp := "t5", data := "f1118", proof := 3, previous_hash := hB3J }

def hB2R : String := "c0aed05d6643d54bad6a64b1a2dc74e68ecbeb2f3a12bb148de36cc619e8fdf5"

/-- What the repair pass of the second deletion turns `b3J` into. -/
def b3R : Block :=
  { index := 4, timestamp := "t3", data := "e21491", proof := 13, previous_hash := hB2R }

set_option maxRecDepth 100000

set_option maxHeartbeats 4000000

example : sha256hex [] = "e3b0c44298fc1c149afbf4c8996fb92427ae41e4649b934ca495991b7852b855" := by
  rfl

example : sha256hex [97, 98, 99] =
    "ba7816bf8f01cfea414140de5dae2223b00361a396177a9cb410ff61f20015ad" := by
  rfl

example : intBytes (-208) = [45, 50, 48, 56] := by rfl
example : intBytes 0 = [48] := by rfl

example : hash_block gEx = hG := by rfl

example : mine_block 20 [gEx] "a2132" "t1" = some ([gEx, b1Ex], b1Ex) := by rfl

example : hash_block b1Ex = hB1 := by rfl

/-! ## The proof-of-work search returns the least satisfying value -/

theorem pow_loop_spec {p i : Nat} {d : String} :
    ∀ fuel n q, pow_loop p i d fuel n = some q →
      n ≤ q ∧ work_ok q p i d = true ∧
        ∀ m, n ≤ m → m < q → work_ok m p i d = false := by
  intro fuel
  induction fuel with
  | zero => intro n q h; simp [pow_loop] at h
  | succ k ih =>
    intro n q h
    rw [pow_loop] at h
    by_cases hw : work_ok n p i d = true
    · rw [if_pos hw] at h
      cases h
      exact ⟨Nat.le_refl n, hw, fun m h1 h2 => absurd h1 (Nat.not_le_of_lt h2)⟩
    · rw [if_neg hw] at h
      obtain ⟨h1, h2, h3⟩ := ih (n + 1) q h
      refine ⟨Nat.le_of_succ_le h1, h2, fun m hm1 hm2 => ?_⟩
      rcases Nat.eq_or_lt_of_le hm1 with heq | hlt
      · rw [← heq]; exact Bool.eq_false_iff.mpr hw
      · exact h3 m hlt hm2

theorem proof_of_work_least {fuel p i q : Nat} {d : String}
    (h : proof_of_work fuel p i d = some q) : IsLeastProof q p i d := by
  obtain ⟨h1, h2, h3⟩ := pow_loop_spec fuel 1 q h
  exact ⟨h1, h2, h3⟩

theorem least_proof_unique {q q' p i : Nat} {d : String}
    (h : IsLeastProof q p i d) (h' : IsLeastProof q' p i d) : q = q' := by
  obtain ⟨hq1, hq2, hq3⟩ := h
  obtain ⟨hq1', hq2', hq3'⟩ := h'
  rcases Nat.lt_trichotomy q q' with hlt | heq | hgt
  · rw [hq3' q hq1 hlt] at hq2; cases hq2
  · exact heq
  · rw [hq3 q' hq1' hgt] at hq2'; cases hq2'

theorem proof_of_work_eq_of_least {fuel p i q q' : Nat} {d : String}
    (h : IsLeastProof q p i d) (h' : proof_of_work fuel p i d = some q') : q' = q :=
  least_proof_unique (proof_of_work_least h') h

theorem repair_from_length {fuel : Nat} :
    ∀ (bs : List Block) (prev : Block) (out : List Block),
      repair_from fuel prev bs = some out → out.length = bs.length := by
  intro bs
  induction bs with
  | nil => intro prev out h; cases h; rfl
  | cons b bs ih =>
    intro prev out h
    unfold repair_from at h
    split at h
    · cases h
    · rename_i q hp
      split at h
      · cases h
      · rename_i rest' hr
        cases h
        simp [ih b rest' hr]

/-- The repair loop recomputes, from the *old* predecessor, exactly the
values a well-formed prefix already has: it leaves that prefix unchanged and
continues on the rest from the last block of that prefix. -/
theorem repair_front_unchanged {fuel : Nat} {rest : List Block} :
    ∀ (bs : List Block) (prev : Block) (out : List Block),
      chain_ok prev bs →
      repair_from fuel prev (bs ++ rest) = some out →
      ∃ out2, out = bs ++ out2 ∧
        repair_from fuel (bs.getLastD prev) rest = some out2 := by
  intro bs
  induction bs with
  | nil => intro prev out _ h; exact ⟨out, rfl, h⟩
  | cons b bs ih =>
    intro prev out hok h
    obtain ⟨h1, h2, h3⟩ := hok
    rw [List.cons_append] at h
    unfold repair_from at h
    split at h
    · cases h
    · rename_i q hp
      split at h
      · cases h
      · rename_i rest' hr
        cases h
        have hq : q = b.proof := proof_of_work_eq_of_least h2 hp
        have hhd : { b with previous_hash := hash_block prev, proof := q } = b := by
          rw [hq, ← h1]
        obtain ⟨out2, hsplit, hrep⟩ := ih b rest' h3 hr
        refine ⟨out2, ?_, ?_⟩
        · rw [hhd, hsplit]; rfl
        · rw [List.getLastD_cons]; exact hrep

theorem remove_first_cons {a : Block} {bs : List Block} {p : Nat} :
    remove_first_by_proof (a :: bs) p =
      if a.proof == p then bs else a :: remove_first_by_proof bs p := rfl

theorem remove_first_append {p : Nat} {del : Block} (hdel : del.proof = p) :
    ∀ (pre post : List Block), (∀ b ∈ pre, b.proof ≠ p) →
      remove_first_by_proof (pre ++ del :: post) p = pre ++ post := by
  intro pre
  induction pre with
  | nil => intro post _; simp [remove_first_cons, hdel]
  | cons a pre ih =>
    intro post hpre
    have ha : a.proof ≠ p := hpre a (List.mem_cons_self a pre)
    rw [List.cons_append, remove_first_cons, if_neg (by simp [ha]),
      ih post (fun b hb => hpre b (List.mem_cons_of_mem a hb)), List.cons_append]

theorem any_proof_true {p : Nat} {del : Block} (hdel : del.proof = p)
    {c : List Block} (hmem : del ∈ c) :
    c.any (fun b => b.proof == p) = true := by
  rw [List.any_eq_true]
  exact ⟨del, hmem, by simp [hdel]⟩

theorem validate_block_true_iff {b prev : Block} :
    validate_block b prev = true ↔
      b.previous_hash = hash_block prev ∧
        work_ok b.proof prev.proof b.index b.data = true := by
  unfold validate_block work_ok
  by_cases h1 : b.previous_hash = hash_block prev
  · by_cases h2 :
      (sha256hex (to_digest b.proof prev.proof b.index b.data)).take 4 = "0000"
    · simp [h1, h2]
    · simp [h1, h2]
  · simp [h1]

theorem chain_valid_from_cons {prev b : Block} {bs : List Block} :
    chain_valid_from prev (b :: bs) =
      (validate_block b prev && chain_valid_from b bs) := by
  cases h : validate_block b prev <;> simp [chain_valid_from, h]

theorem chain_valid_from_append {ys : List Block} :
    ∀ (xs : List Block) (prev : Block),
      chain_valid_from prev (xs ++ ys) =
        (chain_valid_from prev xs && chain_valid_from (xs.getLastD prev) ys) := by
  intro xs
  induction xs with
  | nil => intro prev; simp [chain_valid_from, List.getLastD]
  | cons x xs ih =>
    intro prev
    rw [List.cons_append, chain_valid_from_cons, chain_valid_from_cons, ih x,
      List.getLastD_cons, Bool.and_assoc]

theorem chain_ok_valid : ∀ (bs : List Block) (prev : Block),
    chain_ok prev bs → chain_valid_from prev bs = true := by
  intro bs
  induction bs with
  | nil => intro prev _; rfl
  | cons b bs ih =>
    intro prev h
    obtain ⟨h1, h2, h3⟩ := h
    rw [chain_valid_from_cons, validate_block_true_iff.mpr ⟨h1, h2.2.1⟩,
      ih b h3, Bool.and_self]

theorem chain_ok_append {ys : List Block} : ∀ (xs : List Block) (prev : Block),
    chain_ok prev (xs ++ ys) → chain_ok prev xs := by
  intro xs
  induction xs with
  | nil => intro prev _; trivial
  | cons x xs ih =>
    intro prev h
    obtain ⟨h1, h2, h3⟩ := h
    exact ⟨h1, h2, ih x h3⟩

theorem chain_ok_append_one : ∀ (t : List Block) (prev last b : Block),
    chain_ok prev t → (prev :: t).getLast? = some last →
    b.previous_hash = hash_block last →
    IsLeastProof b.proof last.proof b.index b.data →
    chain_ok prev (t ++ [b]) := by
  intro t
  induction t with
  | nil =>
    intro prev last b _ hl hb hq
    cases hl
    exact ⟨hb, hq, trivial⟩
  | cons x xs ih =>
    intro prev last b h hl hb hq
    obtain ⟨h1, h2, h3⟩ := h
    rw [List.getLast?_cons_cons] at hl
    exact ⟨h1, h2, ih x last b h3 hl hb hq⟩

/-- Unpacking a successful `mine_block` call. -/
theorem mine_block_spec {fuel : Nat} {c c' : List Block} {b : Block} {d ts : String}
    (h : mine_block fuel c d ts = some (c', b)) :
    ∃ last, c.getLast? = some last ∧
      c' = c ++ [b] ∧
      b = create_block d b.proof (hash_block last) (c.length + 1) ts ∧
      IsLeastProof b.proof last.proof (c.length + 1) d := by
  unfold mine_block at h
  split at h
  · cases h
  · rename_i last hl
    split at h
    · cases h
    · rename_i q hp
      cases h
      exact ⟨last, hl, rfl, rfl, proof_of_work_least hp⟩

/-- A mined chain is the genesis block followed by a well-formed tail. -/
theorem mined_shape {gts : String} {c : List Block} (h : Mined gts c) :
    ∃ t, c = genesis_block gts :: t ∧ chain_ok (genesis_block gts) t := by
  induction h with
  | init => exact ⟨[], rfl, trivial⟩
  | mine fuel data ts hm hstep ih =>
    rename_i c c' b
    obtain ⟨t, hc, hok⟩ := ih
    obtain ⟨last, hl, hc', hb, hq⟩ := mine_block_spec hstep
    subst hc
    have hidx : b.index = (genesis_block gts :: t).length + 1 := by rw [hb]; rfl
    have hdata : b.data = data := by rw [hb]; rfl
    have hph : b.previous_hash = hash_block last := by rw [hb]; rfl
    refine ⟨t ++ [b], by rw [hc']; rfl, ?_⟩
    refine chain_ok_append_one t _ last b hok hl hph ?_
    rw [hidx, hdata]
    exact hq

/-- Deleting from a mined chain: the prefix before the removal point
survives unchanged; the suffix keeps its length; removing the last block
leaves every surviving block untouched. -/
theorem delete_block_frame {gts : String} {fuel p : Nat}
    {pre post c' : List Block} {del : Block}
    (hm : Mined gts (pre ++ del :: post))
    (hdel : del.proof = p)
    (hpre : ∀ b ∈ pre, b.proof ≠ p)
    (h : delete_block fuel (pre ++ del :: post) p = some c') :
    ∃ post', c' = pre ++ post' ∧ post'.length = post.length ∧
      (post = [] → post' = []) := by
  have hany : (pre ++ del :: post).any (fun b => b.proof == p) = true :=
    any_proof_true hdel (by simp)
  unfold delete_block at h
  rw [if_pos hany, remove_first_append hdel pre post hpre] at h
  cases hpre0 : pre with
  | nil =>
    subst hpre0
    cases hpost : post with
    | nil =>
      subst hpost
      simp only [List.nil_append, repair_chain] at h
      cases h
      exact ⟨[], rfl, rfl, fun _ => rfl⟩
    | cons y post2 =>
      subst hpost
      simp only [List.nil_append, repair_chain] at h
      cases hr : repair_from fuel y post2 with
      | none => rw [hr] at h; cases h
      | some out =>
        rw [hr] at h
        simp only [Option.map_some'] at h
        cases h
        refine ⟨y :: out, rfl, ?_, fun hcon => by cases hcon⟩
        simp [repair_from_length post2 y out hr]
  | cons a pre2 =>
    subst hpre0
    obtain ⟨t, hshape, hok⟩ := mined_shape hm
    have ha : a = genesis_block gts := by
      rw [List.cons_append] at hshape
      exact ((List.cons.injEq _ _ _ _).mp hshape).1
    have ht : pre2 ++ del :: post = t := by
      rw [List.cons_append] at hshape
      exact ((List.cons.injEq _ _ _ _).mp hshape).2
    have hok2 : chain_ok a (pre2 ++ del :: post) := by rw [ha, ht]; exact hok
    have hokpre : chain_ok a pre2 := chain_ok_append pre2 a hok2
    rw [List.cons_append] at h
    simp only [repair_chain] at h
    cases hr : repair_from fuel a (pre2 ++ post) with
    | none => rw [hr] at h; cases h
    | some out =>
      rw [hr] at h
      simp only [Option.map_some'] at h
      cases h
      obtain ⟨out2, hsplit, hrep⟩ := repair_front_unchanged pre2 a out hokpre hr
      refine ⟨out2, by rw [hsplit]; rfl, repair_from_length post _ out2 hrep, ?_⟩
      intro hpost
      subst hpost
      cases hrep
      rfl

theorem mine_block_head {fuel : Nat} {c c' : List Block} {b h0 : Block} {d ts : String}
    (hh : c.head? = some h0) (h : mine_block fuel c d ts = some (c', b)) :
    c'.head? = some h0 := by
  obtain ⟨last, _, hc', _, _⟩ := mine_block_spec h
  subst hc'
  cases c with
  | nil => cases hh
  | cons a t => rw [List.cons_append, List.head?_cons]; rw [List.head?_cons] at hh; exact hh

theorem delete_block_head {fuel p : Nat} {c c' : List Block} {h0 : Block}
    (hh : c.head? = some h0) (hp : h0.proof ≠ p)
    (h : delete_block fuel c p = some c') : c'.head? = some h0 := by
  cases c with
  | nil => cases hh
  | cons a t =>
    rw [List.head?_cons] at hh
    cases hh
    unfold delete_block at h
    by_cases hany : ((h0 :: t).any fun b => b.proof == p) = true
    · rw [if_pos hany, remove_first_cons, if_neg (by simp [hp])] at h
      simp only [repair_chain] at h
      cases hr : repair_from fuel h0 (remove_first_by_proof t p) with
      | none => rw [hr] at h; cases h
      | some out =>
        rw [hr] at h
        simp only [Option.map_some'] at h
        cases h
        rfl
    · rw [if_neg hany] at h
      cases h
      rfl

theorem clear_head {c c' : List Block} {h0 : Block} (hh : c.head? = some h0)
    (h : clear c = some c') : c' = [h0] := by
  cases c with
  | nil => cases hh
  | cons a t =>
    rw [List.head?_cons] at hh
    cases hh
    cases h
    rfl

/-- C2 (amended): as long as `delete_block` is never called with proof
value 1, the first chain entry of every reachable state is the genesis
block. -/
theorem C2_genesis_preserved {gts : String} {c : List Block}
    (h : ReachedD1 gts c) : c.head? = some (genesis_block gts) := by
  induction h with
  | init => rfl
  | step hr hs ih =>
    cases hs with
    | mine fuel d ts hm => exact mine_block_head ih hm
    | del fuel p hp hd =>
      refine delete_block_head ih (fun hcon => hp ?_) hd
      rw [← hcon]
      rfl
    | clr hc => rw [clear_head ih hc]; rfl

/-- C2 counterexample: calling `delete_block` with proof value 1 on a fresh
ledger deletes the genesis block itself, leaving an empty chain. -/
theorem C2_counterexample :
    Reached "t0" [] ∧ ([] : List Block).head? = none := by
  refine ⟨Reached.step Reached.init (Step.del 0 1 ?_), rfl⟩
  rfl

/-- C2 witness: the amended invariant applied to the fresh ledger. -/
theorem C2_witness :
    ReachedD1 "t0" [genesis_block "t0"] ∧
    [genesis_block "t0"].head? = some (genesis_block "t0") :=
  ⟨ReachedD1.init, C2_genesis_preserved ReachedD1.init⟩

/-! ## C6: index distinctness -/

/-- On mine/clear-only states the indices are exactly the positions
`1, 2, ..., length`. -/
theorem reachedMC_indices {gts : String} {c : List Block} (h : ReachedMC gts c) :
    c.map Block.index = List.range' 1 c.length := by
  induction h with
  | init => rfl
  | mine fuel d ts hr hstep ih =>
    rename_i c c' b
    obtain ⟨last, _, hc', hb, _⟩ := mine_block_spec hstep
    subst hc'
    have hidx : b.index = c.length + 1 := by rw [hb]; rfl
    rw [List.map_append, ih, List.length_append, List.map_singleton, hidx,
      List.length_singleton, List.range'_concat]
    simp [Nat.add_comm]
  | clr hr hc ih =>
    rename_i c c'
    cases c with
    | nil => cases hc
    | cons a t =>
      cases hc
      have ha : a.index = 1 := by
        have := congrArg List.head? ih
        simp [List.range'] at this
        cases t with
        | nil => simpa using this
        | cons x xs => simpa using this
      simp [ha, List.range']

/-- C6 (amended): in every state reachable using only `mine_block` and
`clear`, the `index` fields are pairwise distinct. -/
theorem C6_indices_distinct {gts : String} {c : List Block}
    (h : ReachedMC gts c) : (c.map Block.index).Nodup := by
  rw [reachedMC_indices h]
  exact List.nodup_range' 1 c.length

/-- C6 counterexample: mine a block, delete the genesis block (proof 1),
mine again — the two surviving blocks both carry index 2. -/
theorem C6_counterexample :
    Reached "t0" [b1Ex, bXEx] ∧ ¬ ([b1Ex, bXEx].map Block.index).Nodup := by
  refine ⟨?_, by decide⟩
  have s1 : Step [genesis_block "t0"] [genesis_block "t0", b1Ex] :=
    Step.mine 20 "a2132" "t1" (by rfl)
  have s2 : Step [genesis_block "t0", b1Ex] [b1Ex] := Step.del 0 1 (by rfl)
  have s3 : Step [b1Ex] [b1Ex, bXEx] := Step.mine 25 "x1013" "t4" (by rfl)
  exact Reached.step (Reached.step (Reached.step Reached.init s1) s2) s3

/-- C6 witness: the amended invariant applied to the fresh ledger. -/
theorem C6_witness :
    ReachedMC "t0" [genesis_block "t0"] ∧
    ([genesis_block "t0"].map Block.index).Nodup :=
  ⟨ReachedMC.init, C6_indices_distinct ReachedMC.init⟩

/-! ## C8: clear -/

/-- C8 (amended): on any reachable state whose first entry is still the
genesis block, `clear` truncates the chain to exactly the genesis block. -/
theorem C8_clear {gts : String} {c : List Block}
    (hr : Reached gts c) (hh : c.head? = some (genesis_block gts)) :
    clear c = some [genesis_block gts] := by
  cases c with
  | nil => cases hh
  | cons a t =>
    rw [List.head?_cons] at hh
    cases hh
    rfl

/-- C8 counterexample: the empty chain is reachable (delete proof value 1, held by the genesis
block, on a fresh ledger), and `clear` then raises `IndexError`
instead of producing a one-block chain. -/
theorem C8_counterexample :
    Reached "t0" [] ∧ clear ([] : List Block) = none := by
  refine ⟨Reached.step Reached.init (Step.del 0 1 ?_), rfl⟩
  rfl

/-- C8 witness: clearing the fresh ledger keeps exactly the genesis block. -/
theorem C8_witness :
    Reached "t0" [genesis_block "t0"] ∧
    [genesis_block "t0"].head? = some (genesis_block "t0") ∧
    clear [genesis_block "t0"] = some [genesis_block "t0"] :=
  ⟨Reached.init, rfl, C8_clear Reached.init rfl⟩

/-! ## C9: deleting an absent proof is a silent no-op -/

/-- C9: if no block carries the requested proof, `delete_block` returns
normally and leaves the chain unchanged. -/
theorem C9_delete_noop {fuel p : Nat} {c : List Block}
    (h : ∀ b ∈ c, b.proof ≠ p) : delete_block fuel c p = some c := by
  have hany : (c.any fun b => b.proof == p) = false := by
    rw [List.any_eq_false]
    intro b hb
    simpa using h b hb
  unfold delete_block
  rw [hany]
  rfl

/-- C9 witness: deleting proof 5 from the fresh ledger changes nothing. -/
theorem C9_witness :
    (∀ b ∈ [genesis_block "t0"], b.proof ≠ 5) ∧
    delete_block 0 [genesis_block "t0"] 5 = some [genesis_block "t0"] :=
  ⟨by decide, C9_delete_noop (by decide)⟩

/-! ## C10: mining only appends -/

/-- C10: a successful `mine_block` call leaves every existing block intact
at its position and only appends the returned block at the end. -/
theorem C10_mine_frame {fuel : Nat} {c c' : List Block} {b : Block} {d ts : String}
    (h : mine_block fuel c d ts = some (c', b)) : c' = c ++ [b] := by
  obtain ⟨last, _, hc', _, _⟩ := mine_block_spec h
  exact hc'

/-- C10 witness: the concrete mine on the fresh ledger appends `b1Ex`. -/
theorem C10_witness :
    mine_block 20 [gEx] "a2132" "t1" = some ([gEx, b1Ex], b1Ex) ∧
    [gEx, b1Ex] = [gEx] ++ [b1Ex] := by
  have hm : mine_block 20 [gEx] "a2132" "t1" = some ([gEx, b1Ex], b1Ex) := by rfl
  exact ⟨hm, C10_mine_frame hm⟩

/-! ## C7: mining appends a valid block -/

theorem getLastD_of_getLast? {l : List Block} {a x : Block}
    (h : (a :: l).getLast? = some x) : l.getLastD a = x := by
  rw [List.getLast?_cons] at h
  injection h with h
  rw [List.getLastD_eq_getLast?, h]

/-- C7: on a valid non-empty chain, `mine_block` extends the chain by
exactly the returned block, whose index is the old length plus one and
whose `previous_hash` is the hash of the old last block; the chain stays
valid. -/
theorem C7_mine_appends_validly {fuel : Nat} {c c' : List Block} {b last : Block}
    {d ts : String}
    (hv : is_chain_valid c = true)
    (hl : c.getLast? = some last)
    (h : mine_block fuel c d ts = some (c', b)) :
    c'.length = c.length + 1 ∧ c' = c ++ [b] ∧ b.index = c.length + 1 ∧
      b.previous_hash = hash_block last ∧ is_chain_valid c' = true := by
  obtain ⟨last2, hl2, hc', hb, hq⟩ := mine_block_spec h
  rw [hl] at hl2
  injection hl2 with hl2
  subst hl2
  have hidx : b.index = c.length + 1 := by rw [hb]; rfl
  have hdata : b.data = d := by rw [hb]; rfl
  have hph : b.previous_hash = hash_block last := by rw [hb]; rfl
  refine ⟨by rw [hc']; simp, hc', hidx, hph, ?_⟩
  subst hc'
  cases c with
  | nil => cases hl
  | cons h0 t =>
    have hlast : t.getLastD h0 = last := getLastD_of_getLast? hl
    show chain_valid_from h0 (t ++ [b]) = true
    rw [chain_valid_from_append, hlast]
    have hv2 : chain_valid_from h0 t = true := hv
    rw [hv2, Bool.true_and, chain_valid_from_cons]
    have hval : validate_block b last = true := by
      refine validate_block_true_iff.mpr ⟨hph, ?_⟩
      rw [hidx, hdata]
      exact hq.2.1
    rw [hval, Bool.true_and]
    rfl

/-- C7 witness: mining `"a2132"` on the fresh ledger. -/
theorem C7_witness :
    is_chain_valid [gEx] = true ∧ [gEx].getLast? = some gEx ∧
    mine_block 20 [gEx] "a2132" "t1" = some ([gEx, b1Ex], b1Ex) ∧
    ([gEx, b1Ex].length = [gEx].length + 1 ∧ [gEx, b1Ex] = [gEx] ++ [b1Ex] ∧
     b1Ex.index = [gEx].length + 1 ∧ b1Ex.previous_hash = hash_block gEx ∧
     is_chain_valid [gEx, b1Ex] = true) := by
  have hm : mine_block 20 [gEx] "a2132" "t1" = some ([gEx, b1Ex], b1Ex) := by rfl
  exact ⟨rfl, rfl, hm, C7_mine_appends_validly rfl rfl hm⟩

/-! ## C5: tamper detection -/

/-- C5 (amended): replacing the non-genesis block `x` with `x'` makes the
chain invalid whenever the replacement changes the `previous_hash` field
(the first check of `validate_block` always catches this, also on the last
block), or breaks the work condition of the block itself (a `proof`,
`index` or `data` change failing the digest check), or the block has a
successor and the replacement changes the hash of the block.  (The
counterexample shows the unrestricted claim fails: a field of the *last*
block that leaves `previous_hash` intact and the work condition satisfied,
such as its timestamp, can change freely.) -/
theorem C5_tamper_detected {p0 x x' : Block} {pre post : List Block}
    (hv : is_chain_valid (p0 :: pre ++ x :: post) = true)
    (hbreak :
      x'.previous_hash ≠ x.previous_hash ∨
      work_ok x'.proof (pre.getLastD p0).proof x'.index x'.data = false ∨
      (post ≠ [] ∧ hash_block x' ≠ hash_block x)) :
    is_chain_valid (p0 :: pre ++ x' :: post) = false := by
  have hv1 : chain_valid_from p0 (pre ++ x :: post) = true := hv
  rw [chain_valid_from_append, Bool.and_eq_true] at hv1
  obtain ⟨hvpre, hvx⟩ := hv1
  rw [chain_valid_from_cons, Bool.and_eq_true] at hvx
  obtain ⟨hvxv, hvpost⟩ := hvx
  show chain_valid_from p0 (pre ++ x' :: post) = false
  rw [chain_valid_from_append, chain_valid_from_cons]
  cases hbreak with
  | inl hph =>
    have hxph : x.previous_hash = hash_block (pre.getLastD p0) :=
      (validate_block_true_iff.mp hvxv).1
    have hvb : validate_block x' (pre.getLastD p0) = false := by
      cases hval : validate_block x' (pre.getLastD p0) with
      | false => rfl
      | true =>
        obtain ⟨hph2, _⟩ := validate_block_true_iff.mp hval
        rw [← hxph] at hph2
        exact absurd hph2 hph
    rw [hvb]
    simp
  | inr hrest =>
    cases hrest with
    | inl hw =>
      have hvb : validate_block x' (pre.getLastD p0) = false := by
        cases hval : validate_block x' (pre.getLastD p0) with
        | false => rfl
        | true =>
          obtain ⟨_, hwork⟩ := validate_block_true_iff.mp hval
          rw [hw] at hwork
          cases hwork
      rw [hvb]
      simp
    | inr hr =>
      obtain ⟨hpost, hneq⟩ := hr
      cases post with
      | nil => exact absurd rfl hpost
      | cons y post2 =>
        rw [chain_valid_from_cons] at hvpost ⊢
        rw [Bool.and_eq_true] at hvpost
        obtain ⟨hvy, _⟩ := hvpost
        have hyph : y.previous_hash = hash_block x :=
          (validate_block_true_iff.mp hvy).1
        have hvyx : validate_block y x' = false := by
          cases hval : validate_block y x' with
          | false => rfl
          | true =>
            obtain ⟨hyph2, _⟩ := validate_block_true_iff.mp hval
            rw [hyph] at hyph2
            exact absurd hyph2.symm hneq
        rw [hvyx]
        simp

/-- C5 counterexample: `[gEx, b1Ex]` is a valid chain; changing the single
field `timestamp` of the non-genesis block `b1Ex` to a different value
leaves `is_chain_valid` equal to `true`. -/
theorem C5_counterexample :
    is_chain_valid [gEx, b1Ex] = true ∧
    b1TsEx.timestamp ≠ b1Ex.timestamp ∧
    b1TsEx.index = b1Ex.index ∧ b1TsEx.data = b1Ex.data ∧
    b1TsEx.proof = b1Ex.proof ∧ b1TsEx.previous_hash = b1Ex.previous_hash ∧
    is_chain_valid [gEx, b1TsEx] = true := by
  exact ⟨by rfl, by decide, rfl, rfl, rfl, rfl, by rfl⟩

/-- C5 witness: two instances of the amended theorem on the *last* block of
the valid chain `[gEx, b1Ex]`: changing its `previous_hash` field is caught
by the first check of `validate_block` even without a successor, and
changing its data to `"zz"` breaks the work condition; both tampered chains
are reported invalid. -/
theorem C5_witness :
    is_chain_valid (gEx :: [] ++ b1Ex :: []) = true ∧
    b1PhEx.previous_hash ≠ b1Ex.previous_hash ∧
    is_chain_valid (gEx :: [] ++ b1PhEx :: []) = false ∧
    work_ok b1DataEx.proof (([] : List Block).getLastD gEx).proof
      b1DataEx.index b1DataEx.data = false ∧
    is_chain_valid (gEx :: [] ++ b1DataEx :: []) = false := by
  have hv : is_chain_valid (gEx :: [] ++ b1Ex :: []) = true := by rfl
  have hph : b1PhEx.previous_hash ≠ b1Ex.previous_hash := by decide
  have hw : work_ok b1DataEx.proof (([] : List Block).getLastD gEx).proof
      b1DataEx.index b1DataEx.data = false := by rfl
  exact ⟨hv, hph, C5_tamper_detected hv (Or.inl hph),
    hw, C5_tamper_detected hv (Or.inr (Or.inl hw))⟩

/-! ## C4: what the proof-of-work search returns -/

/-- C4 (amended): whenever `_proof_of_work` terminates it returns the least
integer greater than or equal to 1 satisfying the work condition (the
search never tests 0), and any two terminating runs agree. -/
theorem C4_pow_least_positive {fuel fuel2 p i q q2 : Nat} {d : String}
    (hp : 1 ≤ p) (hi : 1 ≤ i)
    (h : proof_of_work fuel p i d = some q)
    (h2 : proof_of_work fuel2 p i d = some q2) :
    IsLeastProof q p i d ∧ q2 = q :=
  ⟨proof_of_work_least h, proof_of_work_eq_of_least (proof_of_work_least h) h2⟩

/-- C4 counterexample: with `previous_proof = 1`, `index = 1` and data
`"z2225919"`, the digest for proof value 0 already has the `"0000"` hex
prefix, yet `_proof_of_work` returns 1 — not the smallest *non-negative*
satisfying integer. -/
theorem C4_counterexample :
    work_ok 0 1 1 "z2225919" = true ∧
    proof_of_work 5 1 1 "z2225919" = some 1 ∧ (1 : Nat) ≠ 0 := by
  exact ⟨by rfl, by rfl, by decide⟩

/-- C4 witness: the amended theorem at the same concrete input. -/
theorem C4_witness :
    1 ≤ 1 ∧ proof_of_work 5 1 1 "z2225919" = some 1 ∧
    (IsLeastProof 1 1 1 "z2225919" ∧ 1 = 1) := by
  have h : proof_of_work 5 1 1 "z2225919" = some 1 := by rfl
  exact ⟨Nat.le_refl 1, h, C4_pow_least_positive (Nat.le_refl 1) (Nat.le_refl 1) h h⟩

/-! ## C3: what the deletion repair touches -/

/-- C3: deleting a block from a mined chain (scanning by a proof value
carried by `del` and by no earlier block) keeps every surviving block
before the removal point exactly as it was, keeps the suffix length, and,
when the removed block was the last element, modifies no surviving block
at all. -/
theorem C3_delete_frame {gts : String} {fuel p : Nat}
    {pre post c' : List Block} {del : Block}
    (hm : Mined gts (pre ++ del :: post))
    (hdel : del.proof = p)
    (hpre : ∀ b ∈ pre, b.proof ≠ p)
    (h : delete_block fuel (pre ++ del :: post) p = some c') :
    c'.take pre.length = pre ∧
    c'.length + 1 = (pre ++ del :: post).length ∧
    (post = [] → c' = pre) := by
  obtain ⟨post', hsplit, hlen, hnil⟩ := delete_block_frame hm hdel hpre h
  subst hsplit
  refine ⟨List.take_left pre post', ?_, ?_⟩
  · rw [List.length_append, List.length_append, hlen, List.length_cons]
    omega
  · intro hp0
    rw [hnil hp0, List.append_nil]

/-- C3 witness: deleting the last mined block (proof 13) of the three-block
mined chain `[gEx, b1Ex, b2Ex]` leaves `[gEx, b1Ex]` exactly. -/
theorem C3_witness :
    Mined "t0" ([gEx, b1Ex] ++ b2Ex :: []) ∧
    b2Ex.proof = 13 ∧
    (∀ b ∈ [gEx, b1Ex], b.proof ≠ 13) ∧
    delete_block 20 ([gEx, b1Ex] ++ b2Ex :: []) 13 = some [gEx, b1Ex] ∧
    ([gEx, b1Ex].take [gEx, b1Ex].length = [gEx, b1Ex] ∧
     [gEx, b1Ex].length + 1 = ([gEx, b1Ex] ++ b2Ex :: []).length ∧
     (([] : List Block) = [] → [gEx, b1Ex] = [gEx, b1Ex])) := by
  have hm1 : mine_block 20 [genesis_block "t0"] "a2132" "t1"
      = some ([gEx, b1Ex], b1Ex) := by rfl
  have hm2 : mine_block 20 [gEx, b1Ex] "b76851" "t2"
      = some ([gEx, b1Ex, b2Ex], b2Ex) := by rfl
  have hmined : Mined "t0" ([gEx, b1Ex] ++ b2Ex :: []) :=
    Mined.mine 20 "b76851" "t2" (Mined.mine 20 "a2132" "t1" Mined.init hm1) hm2
  have hd : delete_block 20 ([gEx, b1Ex] ++ b2Ex :: []) 13 = some [gEx, b1Ex] := by
    rfl
  exact ⟨hmined, rfl, by decide, hd,
    C3_delete_frame hmined rfl (by decide) hd⟩

/-! ## C1: deleting a middle block leaves an invalid chain -/

/-- C1 evidence: `[gEx, b1Ex, b2Ex, b3Ex]` is a fully mined, valid
four-block chain.  Deleting the first mined block (proof 11) removes
exactly that block, but the backward repair loop reads each predecessor
*before* repairing it: the surviving block `b3Ex` keeps the hash of the old
`b2Ex` while `b2Ex` itself is rewritten to `b2RE`, so `is_chain_valid`
afterwards returns `false` — not `true` as the specification promises. -/
theorem C1_delete_breaks_validity :
    Mined "t0" [gEx, b1Ex, b2Ex, b3Ex] ∧
    is_chain_valid [gEx, b1Ex, b2Ex, b3Ex] = true ∧
    delete_block 20 [gEx, b1Ex, b2Ex, b3Ex] 11 = some [gEx, b2RE, b3Ex] ∧
    is_chain_valid [gEx, b2RE, b3Ex] = false := by
  have hm1 : mine_block 20 [genesis_block "t0"] "a2132" "t1"
      = some ([gEx, b1Ex], b1Ex) := by rfl
  have hm2 : mine_block 20 [gEx, b1Ex] "b76851" "t2"
      = some ([gEx, b1Ex, b2Ex], b2Ex) := by rfl
  have hm3 : mine_block 20 [gEx, b1Ex, b2Ex] "c2036" "t3"
      = some ([gEx, b1Ex, b2Ex, b3Ex], b3Ex) := by rfl
  refine ⟨?_, by rfl, by rfl, by rfl⟩
  exact Mined.mine 20 "c2036" "t3"
    (Mined.mine 20 "b76851" "t2" (Mined.mine 20 "a2132" "t1" Mined.init hm1) hm2) hm3

/-- C3 counterexample: mine four blocks, delete the first mined block — the
reachable state `[gEx, b2RE, b3J, b4J]` keeps in `b3J` the hash of the old,
pre-repair `b2Ex`.  Now delete the *last* block (proof 3, carried by no other
block): the repair loop still sweeps the whole chain and rewrites `b3J` to
`b3R` — a surviving block strictly before the removal point is modified even
though the removed block was the last element. -/
theorem C3_counterexample :
    Reached "t0" [gEx, b2RE, b3J, b4J] ∧
    (∀ b ∈ [gEx, b2RE, b3J], b.proof ≠ 3) ∧
    delete_block 25 [gEx, b2RE, b3J, b4J] 3 = some [gEx, b2RE, b3R] ∧
    b3R ≠ b3J := by
  refine ⟨?_, by decide, by rfl, by decide⟩
  have s1 : Step [genesis_block "t0"] [gEx, b1Ex] :=
    Step.mine 20 "a2132" "t1" (by rfl)
  have s2 : Step [gEx, b1Ex] [gEx, b1Ex, b2Ex] :=
    Step.mine 20 "b76851" "t2" (by rfl)
  have s3 : Step [gEx, b1Ex, b2Ex] [gEx, b1Ex, b2Ex, b3J] :=
    Step.mine 20 "e21491" "t3" (by rfl)
  have s4 : Step [gEx, b1Ex, b2Ex, b3J] [gEx, b1Ex, b2Ex, b3J, b4J] :=
    Step.mine 20 "f1118" "t5" (by rfl)
  have s5 : Step [gEx, b1Ex, b2Ex, b3J, b4J] [gEx, b2RE, b3J, b4J] :=
    Step.del 25 11 (by rfl)
  exact Reached.step (Reached.step (Reached.step (Reached.step
    (Reached.step Reached.init s1) s2) s3) s4) s5
